import Mathlib

/-
Verification of the LED-group JSON parser (src/manager/json-parser.hpp)
of phosphor-led-manager.

The C++ header implements a parse-validate-build pipeline:
  readJson            -- file existence / emptiness check, then JSON parse
  getAction           -- "On"/"Blink" string to Action enum, assert otherwise
  validatePriority    -- global LED-name -> priority consistency check
  loadJsonConfigV1    -- walks the "leds" array, builds the GroupMap
  loadJsonConfig      -- version dispatch (only version 1 supported)

This file embeds those functions shallowly in Lean, with machine integers
modelled as Int reduced modulo 2^w at the points where the C++ code
narrows, exceptions modelled as Except, and the `assert` in getAction
modelled as an unrecoverable error value.  The nlohmann JSON inputs are
modelled as typed records whose optional fields mirror the `.value(key,
default)` accesses the code performs.
-/

set_option autoImplicit false

namespace LedJsonParser

/-- The phosphor::led::Layout::Action enum: only Blink and On exist. -/
inductive Action where
  | On
  | Blink
deriving DecidableEq, Repr

/-- The phosphor::led::Layout::LedAction record built at json-parser.hpp
lines 133-134: name, visual action, duty cycle (uint8), period (uint16),
priority.  The two integer fields hold the value after C++ narrowing to
their fixed width, hence the modular reduction in processMember below. -/
structure LedAction where
  name : String
  action : Action
  dutyOn : Int
  period : Int
  priority : Action
deriving DecidableEq, Repr

/-- Association-list lookup, the model of std::unordered_map::find
(first binding for the key, none when absent). -/
def mapFind {β : Type} : List (String × β) → String → Option β
  | [], _ => none
  | (n, v) :: rest, k => if n = k then some v else mapFind rest k

/-- The PriorityMap of json-parser.hpp line 21: LED name to priority. -/
abbrev PriorityMap := List (String × Action)

/-- Data carried by the priority-conflict failure: the log call at
json-parser.hpp lines 88-91 reports the LED name, the previously
recorded priority and the newly seen priority before the throw. -/
structure PriorityConflict where
  name : String
  oldPriority : Action
  newPriority : Action
deriving DecidableEq, Repr

/-- validatePriority (json-parser.hpp lines 75-96): look the name up; if
absent, emplace (name, priority); if present with a different priority,
fail (throw) leaving the map untouched; otherwise succeed untouched.
The pair returned is (error if thrown, state of the map afterwards). -/
def validatePriority (name : String) (priority : Action)
    (priorityMap : PriorityMap) : Option PriorityConflict × PriorityMap :=
  match mapFind priorityMap name with
  | none => (none, (name, priority) :: priorityMap)
  | some old =>
    if old ≠ priority then (some ⟨name, old, priority⟩, priorityMap)
    else (none, priorityMap)

/-- getAction (json-parser.hpp lines 59-65): assert the string is "On" or
"Blink", then return Blink exactly for "Blink".  The assert firing (abort,
no value returned) is modelled as none. -/
def getAction (action : String) : Option Action :=
  if action = "On" ∨ action = "Blink" then
    some (if action = "Blink" then Action.Blink else Action.On)
  else none

/-- Every way one load can fail, one constructor per C++ throw site (and
one for the assert in getAction, which aborts rather than throws). -/
inductive LoadError where
  | missingOrEmptyFile
  | parseError
  | unsupportedVersion (version : Int)
  | priorityConflict (name : String) (oldPriority newPriority : Action)
  | assertionFailure
deriving DecidableEq, Repr

/-- One element of a group's "members" array.  Each field is optional,
mirroring the member.value(key, default) reads at lines 121-127; integer
fields are JSON numbers, read as int before narrowing. -/
structure MemberEntry where
  name : Option String
  action : Option String
  dutyOn : Option Int
  period : Option Int
  priority : Option String
deriving DecidableEq, Repr

/-- One element of the document's "leds" array: optional "group" string
and optional "members" array (an absent "members" reads the null default
and iterates as empty, lines 116 and 119). -/
structure GroupEntry where
  group : Option String
  members : Option (List MemberEntry)
deriving DecidableEq, Repr

/-- The parsed document: optional "version" number (line 154) and
optional "leds" array (line 109, absent reads the null default and
iterates as empty). -/
structure LedsDoc where
  version : Option Int
  leds : Option (List GroupEntry)
deriving DecidableEq, Repr

/-- std::filesystem::path::operator/= on POSIX (json-parser.hpp line 114,
tmpPath /= group): an absolute right-hand side replaces the whole path;
otherwise a "/" separator is interposed unless the left side is empty or
already ends in a separator. -/
def pathAppend (base segment : String) : String :=
  if segment.data.head? = some '/' then segment
  else if base = "" then segment
  else if base.data.getLast? = some '/' then base ++ segment
  else base ++ "/" ++ segment

/-- The group path built at lines 113-115: OBJPATH (the externally
configured base, a parameter here) extended by the entry's "group" field,
default "". -/
def entryPath (base : String) (entry : GroupEntry) : String :=
  pathAppend base (entry.group.getD "")

/-- Modelled from the spec: ledlayout.hpp (not part of this fragment)
defines ActionSet as a set of LedAction "keyed by LED identity such that
no two records for the same LED name coexist within one group's set".
Modelled as an insertion-ordered list with key-aware insert. -/
abbrev ActionSet := List LedAction

/-- Set insertion (line 135, ledActions.emplace): a no-op when a record
with the same key (LED name, per the spec's ActionSet) is present. -/
def ActionSet.emplace (s : ActionSet) (a : LedAction) : ActionSet :=
  if s.any fun b => b.name == a.name then s else s ++ [a]

/-- Modelled from the spec: ledlayout.hpp defines GroupMap as
std::unordered_map from group path to ActionSet ("keys unique").
Modelled as an association list; emplace below gives the map semantics. -/
abbrev GroupMap := List (String × ActionSet)

/-- std::unordered_map::emplace (line 140): inserts only when the key is
absent; when the key is already present the map is left unchanged. -/
def GroupMap.emplace (m : GroupMap) (k : String) (v : ActionSet) : GroupMap :=
  match mapFind m k with
  | some _ => m
  | none => (k, v) :: m

/-- The body of the inner member loop (lines 119-136): decode Action
(assert), read DutyOn (narrowed to uint8) and Period (narrowed to
uint16), decode Priority (assert), run validatePriority (throw on
conflict), then build the LedAction record. -/
def processMember (member : MemberEntry) (priorityMap : PriorityMap) :
    Except LoadError (LedAction × PriorityMap) :=
  match getAction (member.action.getD "") with
  | none => .error .assertionFailure
  | some action =>
    match getAction (member.priority.getD "Blink") with
    | none => .error .assertionFailure
    | some priority =>
      match validatePriority (member.name.getD "") priority priorityMap with
      | (some c, _) =>
        .error (.priorityConflict c.name c.oldPriority c.newPriority)
      | (none, pm) =>
        .ok (⟨member.name.getD "", action, (member.dutyOn.getD 50) % 256,
              (member.period.getD 0) % 65536, priority⟩, pm)

/-- The inner loop over one group's members (lines 118-136), threading
the priority map and accumulating the group's ActionSet. -/
def processMembers : List MemberEntry → ActionSet → PriorityMap →
    Except LoadError (ActionSet × PriorityMap)
  | [], s, pm => .ok (s, pm)
  | m :: rest, s, pm =>
    match processMember m pm with
    | .error e => .error e
    | .ok (la, pm') => processMembers rest (ActionSet.emplace s la) pm'

/-- The outer loop over the "leds" array (lines 111-141): build each
group's path and member set, then emplace into the GroupMap. -/
def processEntries (base : String) :
    List GroupEntry → GroupMap → PriorityMap → Except LoadError GroupMap
  | [], gm, _ => .ok gm
  | e :: rest, gm, pm =>
    match processMembers (e.members.getD []) [] pm with
    | .error err => .error err
    | .ok (ledActions, pm') =>
      processEntries base rest
        (GroupMap.emplace gm (entryPath base e) ledActions) pm'

/-- loadJsonConfigV1 (lines 102-144): fresh GroupMap and PriorityMap,
then the loop over json.value("leds", null). -/
def loadJsonConfigV1 (base : String) (json : LedsDoc) :
    Except LoadError GroupMap :=
  processEntries base (json.leds.getD []) [] []

/-- loadJsonConfig (lines 150-167): read json.value("version", 1) and
dispatch; any version other than 1 throws, carrying the version in the
log message. -/
def loadJsonConfig (base : String) (json : LedsDoc) :
    Except LoadError GroupMap :=
  let version := json.version.getD 1
  if version = 1 then loadJsonConfigV1 base json
  else .error (.unsupportedVersion version)

/-- readJson (lines 30-51) over an abstract file system: `file` is none
when fs::exists fails and otherwise carries the content (is_empty means
content "").  The existence/emptiness check precedes any parsing, and a
parse failure of non-empty existing content throws the parse error. -/
def readJson {α : Type} (parse : String → Option α) (file : Option String) :
    Except LoadError α :=
  match file with
  | none => .error .missingOrEmptyFile
  | some content =>
    if content = "" then .error .missingOrEmptyFile
    else
      match parse content with
      | some doc => .ok doc
      | none => .error .parseError

/-- getSystemLedMap / loadJsonConfig over a path (lines 150-158 with
readJson): parse the file then dispatch on the version. -/
def loadJsonConfigFile (base : String) (parse : String → Option LedsDoc)
    (file : Option String) : Except LoadError GroupMap :=
  match readJson parse file with
  | .error e => .error e
  | .ok json => loadJsonConfig base json

/-- Proof-auxiliary projection of processMembers: the identical loop
body and error behaviour, keeping only the priority map (the ActionSet
accumulator influences neither); related to processMembers by
processMembers_map_snd below. -/
def scanMembers : List MemberEntry → PriorityMap →
    Except LoadError PriorityMap
  | [], pm => .ok pm
  | m :: rest, pm =>
    match processMember m pm with
    | .error e => .error e
    | .ok (_, pm') => scanMembers rest pm'

/-- All member entries of the document's groups, in document order (the
order in which the nested loops of loadJsonConfigV1 visit them). -/
def flatMembers (entries : List GroupEntry) : List MemberEntry :=
  entries.flatMap fun e => e.members.getD []

/-- The Name a member entry is read with (default ""). -/
def memberName (m : MemberEntry) : String := m.name.getD ""

/-- The decoded Priority field of a member entry (default "Blink"). -/
def decodedPriority (m : MemberEntry) : Option Action :=
  getAction (m.priority.getD "Blink")

/-- Both codec calls of the member loop succeed on this entry, i.e.
neither assert fires. -/
def memberDecodes (m : MemberEntry) : Prop :=
  (getAction (m.action.getD "")).isSome = true ∧
  (decodedPriority m).isSome = true

instance (m : MemberEntry) : Decidable (memberDecodes m) :=
  inferInstanceAs (Decidable (_ ∧ _))

/-- Every binding already recorded agrees with every listed member. -/
def consistentWith (pm : PriorityMap) (ms : List MemberEntry) : Prop :=
  ∀ m ∈ ms, ∀ p, mapFind pm (memberName m) = some p →
    decodedPriority m = some p

/-- Any two members naming the same LED decode to the same Priority. -/
def pairwiseConsistent (ms : List MemberEntry) : Prop :=
  ∀ m1 ∈ ms, ∀ m2 ∈ ms, memberName m1 = memberName m2 →
    decodedPriority m1 = decodedPriority m2

instance (ms : List MemberEntry) : Decidable (pairwiseConsistent ms) :=
  inferInstanceAs (Decidable (∀ m1 ∈ ms, ∀ m2 ∈ ms, _ = _ → _ = _))

/-- A one-group document whose group field begins with "/". -/
def groupSlashDoc : LedsDoc := ⟨none, some [⟨some "/a", some []⟩]⟩

/-- Two group entries with the same group field and different members. -/
def dupGroupDoc : LedsDoc :=
  ⟨none, some
    [⟨some "g", some [⟨some "a", some "On", none, none, none⟩]⟩,
     ⟨some "g", some [⟨some "b", some "On", none, none, none⟩]⟩]⟩

/-- The spec §8 example scenario: led0 in groups power and fault with
matching priority "On". -/
def exampleDoc : LedsDoc :=
  ⟨some 1, some
    [⟨some "power", some [⟨some "led0", some "On", none, none, some "On"⟩]⟩,
     ⟨some "fault", some [⟨some "led0", some "Blink", none, none, some "On"⟩]⟩]⟩

/-- The spec §8 example scenario with the second Priority changed to
"Blink": led0 carries two different priorities. -/
def conflictDoc : LedsDoc :=
  ⟨some 1, some
    [⟨some "power", some [⟨some "led0", some "On", none, none, some "On"⟩]⟩,
     ⟨some "fault", some [⟨some "led0", some "Blink", none, none, some "Blink"⟩]⟩]⟩

/-! ## Claim theorems: the Action codec, defaulting, simple pipeline facts -/

/-- C4: the action decoder succeeds exactly on "On" and "Blink"
(case-sensitive), returning Action.On for "On" and Action.Blink for
"Blink"; every other string, including the empty string read when the
Action field is absent, trips the assertion (no value is returned), and
the member loop propagates that as the assertion failure. -/
theorem C4_action_codec (s : String) :
    (s = "On" → getAction s = some Action.On) ∧
    (s = "Blink" → getAction s = some Action.Blink) ∧
    (s ≠ "On" ∧ s ≠ "Blink" → getAction s = none) ∧
    (∀ (m : MemberEntry) (pm : PriorityMap), m.action = none →
      processMember m pm = .error .assertionFailure) := by
  refine ⟨?_, ?_, ?_, ?_⟩
  · rintro rfl; rfl
  · rintro rfl; rfl
  · rintro ⟨h1, h2⟩; simp [getAction, h1, h2]
  · intro m pm h
    have : getAction (m.action.getD "") = none := by
      rw [h]; simp [getAction]
    simp [processMember, this]

/-- C4 witness: concrete evaluations of the codec contract. -/
theorem C4_witness :
    getAction "On" = some Action.On ∧ getAction "Blink" = some Action.Blink ∧
    getAction "on" = none ∧
    processMember ⟨some "led0", none, none, none, none⟩ [] =
      .error .assertionFailure :=
  ⟨(C4_action_codec "On").1 rfl, (C4_action_codec "Blink").2.1 rfl,
   (C4_action_codec "on").2.2.1 ⟨by decide, by decide⟩,
   (C4_action_codec "x").2.2.2 ⟨some "led0", none, none, none, none⟩ [] rfl⟩

/-- C9: a document with no leds field loads (version 1) to the empty
GroupMap, not an error. -/
theorem C9_no_leds_empty_map (base : String) (doc : LedsDoc)
    (h : doc.leds = none) :
    loadJsonConfigV1 base doc = .ok ([] : GroupMap) := by
  simp [loadJsonConfigV1, h, processEntries]

/-- C9 witness: the empty object (no version, no leds) at a concrete base. -/
theorem C9_witness :
    loadJsonConfigV1 "/xyz/openbmc_project/led/groups" ⟨none, none⟩ =
      .ok ([] : GroupMap) :=
  C9_no_leds_empty_map "/xyz/openbmc_project/led/groups" ⟨none, none⟩ rfl

/-- C10: validatePriority inserts exactly (name, priority) when the name
is absent and succeeds; when the name is present the map is returned
exactly unchanged, succeeding on an equal priority and failing with the
conflict record (name, old, new) on a different one; moreover no call
ever alters an existing binding, so each LED keeps the priority of the
first entry naming it. -/
theorem C10_validatePriority_mutation (name : String) (priority : Action)
    (pm : PriorityMap) :
    (mapFind pm name = none →
      validatePriority name priority pm = (none, (name, priority) :: pm)) ∧
    (∀ p, mapFind pm name = some p →
      (validatePriority name priority pm).2 = pm ∧
      (p = priority → (validatePriority name priority pm).1 = none) ∧
      (p ≠ priority →
        (validatePriority name priority pm).1 = some ⟨name, p, priority⟩)) ∧
    (∀ n v, mapFind pm n = some v →
      mapFind (validatePriority name priority pm).2 n = some v) := by
  refine ⟨?_, ?_, ?_⟩
  · intro h; simp [validatePriority, h]
  · intro p hp
    by_cases h : p = priority
    · subst h
      exact ⟨by simp [validatePriority, hp], fun _ => by simp [validatePriority, hp],
             fun hne => absurd rfl hne⟩
    · exact ⟨by simp [validatePriority, hp, h], fun he => absurd he h,
             fun _ => by simp [validatePriority, hp, h]⟩
  · intro n v hv
    unfold validatePriority
    cases hf : mapFind pm name with
    | none =>
      have hne : name ≠ n := by
        rintro rfl; rw [hv] at hf; exact Option.noConfusion hf
      simp [mapFind, hne, hv]
    | some old =>
      by_cases h : old = priority <;> simp [h, hv]

/-- C10 witness: concrete insert, no-op success, and conflict cases. -/
theorem C10_witness :
    validatePriority "a" Action.On [] = (none, [("a", Action.On)]) ∧
    (validatePriority "a" Action.Blink [("a", Action.Blink)]).2 =
      [("a", Action.Blink)] ∧
    (validatePriority "a" Action.Blink [("a", Action.Blink)]).1 = none ∧
    (validatePriority "a" Action.On [("a", Action.Blink)]).2 =
      [("a", Action.Blink)] ∧
    (validatePriority "a" Action.On [("a", Action.Blink)]).1 =
      some ⟨"a", Action.Blink, Action.On⟩ :=
  ⟨(C10_validatePriority_mutation "a" Action.On []).1 rfl,
   ((C10_validatePriority_mutation "a" Action.Blink
      [("a", Action.Blink)]).2.1 Action.Blink rfl).1,
   ((C10_validatePriority_mutation "a" Action.Blink
      [("a", Action.Blink)]).2.1 Action.Blink rfl).2.1 rfl,
   ((C10_validatePriority_mutation "a" Action.On
      [("a", Action.Blink)]).2.1 Action.Blink rfl).1,
   ((C10_validatePriority_mutation "a" Action.On
      [("a", Action.Blink)]).2.1 Action.Blink rfl).2.2 (by decide)⟩

/-- C8: a member entry omitting DutyOn, Period and Priority (with a valid
Action) always yields dutyCyclePercent 50, periodMs 0 and priority Blink
in any record the loop constructs for it; on a fresh priority map the
construction succeeds with exactly those defaults. -/
theorem C8_member_defaults (m : MemberEntry) (pm : PriorityMap)
    (hd : m.dutyOn = none) (hp : m.period = none) (hpr : m.priority = none)
    (ha : (getAction (m.action.getD "")).isSome) :
    (∀ la pm', processMember m pm = .ok (la, pm') →
      la.dutyOn = 50 ∧ la.period = 0 ∧ la.priority = Action.Blink) ∧
    (∃ a, getAction (m.action.getD "") = some a ∧
      processMember m [] =
        .ok (⟨m.name.getD "", a, 50, 0, Action.Blink⟩,
             [(m.name.getD "", Action.Blink)])) := by
  obtain ⟨a, hact⟩ := Option.isSome_iff_exists.mp ha
  have hprio : getAction (m.priority.getD "Blink") = some Action.Blink := by
    rw [hpr]; rfl
  constructor
  · intro la pm' hok
    simp only [processMember, hact, hprio] at hok
    cases hv : validatePriority (m.name.getD "") Action.Blink pm with
    | mk err pm2 =>
      cases err with
      | some c => simp [hv] at hok
      | none =>
        simp only [hv, Except.ok.injEq, Prod.mk.injEq] at hok
        obtain ⟨hla, -⟩ := hok
        subst hla
        rw [hd, hp]
        refine ⟨?_, ?_, rfl⟩
        · show ((none : Option Int).getD 50) % 256 = 50
          decide
        · show ((none : Option Int).getD 0) % 65536 = 0
          decide
  · refine ⟨a, hact, ?_⟩
    simp only [processMember, hact, hprio]
    have hv : validatePriority (m.name.getD "") Action.Blink [] =
        (none, [(m.name.getD "", Action.Blink)]) := rfl
    simp only [hv]
    rw [hd, hp]
    rfl

/-- C8 witness: concrete member with only Name and Action present. -/
theorem C8_witness :
    processMember ⟨some "led0", some "On", none, none, none⟩ [] =
      .ok (⟨"led0", Action.On, 50, 0, Action.Blink⟩, [("led0", Action.Blink)]) := by
  have h := (C8_member_defaults ⟨some "led0", some "On", none, none, none⟩ []
    rfl rfl rfl (by decide)).2
  obtain ⟨a, hact, hres⟩ := h
  have : a = Action.On := by
    have : some a = some Action.On := by rw [← hact]; rfl
    exact Option.some.inj this
  rw [this] at hres
  exact hres

/-- C7: a missing path or zero-length content fails with the
missing-or-empty-file error no matter what the content would parse to,
and the parse-error branch is reachable only for existing, non-empty,
unparseable content. -/
theorem C7_missing_or_empty {α : Type} (parse : String → Option α)
    (file : Option String) :
    ((file = none ∨ file = some "") →
      readJson parse file = .error .missingOrEmptyFile) ∧
    (readJson parse file = .error .parseError →
      ∃ c, file = some c ∧ c ≠ "" ∧ parse c = none) := by
  constructor
  · rintro (rfl | rfl)
    · rfl
    · rfl
  · intro h
    cases file with
    | none => exact LoadError.noConfusion (Except.error.inj h)
    | some c =>
      refine ⟨c, rfl, ?_, ?_⟩
      · intro hc
        rw [readJson] at h
        simp only [hc, if_pos rfl] at h
        exact LoadError.noConfusion (Except.error.inj h)
      · by_cases hc : c = ""
        · rw [readJson] at h
          simp only [hc, if_pos rfl] at h
          exact absurd (Except.error.inj h) (by simp)
        · rw [readJson] at h
          simp only [if_neg hc] at h
          cases hp : parse c with
          | none => rfl
          | some doc =>
            rw [hp] at h
            exact Except.noConfusion h

/-- C7 witness: a missing file and an empty file both fail with the
missing-or-empty error even under a parser that would succeed, and a
parse failure on real content implies the content was non-empty and
unparseable. -/
theorem C7_witness :
    readJson (fun _ => some (⟨none, none⟩ : LedsDoc)) (none : Option String) =
      .error .missingOrEmptyFile ∧
    readJson (fun _ => some (⟨none, none⟩ : LedsDoc)) (some "") =
      .error .missingOrEmptyFile ∧
    ∃ c, (some "not json" : Option String) = some c ∧ c ≠ "" ∧
      (fun (_ : String) => (none : Option LedsDoc)) c = none :=
  ⟨(C7_missing_or_empty (fun _ => some ⟨none, none⟩) none).1 (Or.inl rfl),
   (C7_missing_or_empty (fun _ => some ⟨none, none⟩) (some "")).1 (Or.inr rfl),
   (C7_missing_or_empty (fun _ => (none : Option LedsDoc)) (some "not json")).2 rfl⟩

/-- C3: a present version other than 1 fails with the unsupported-version
error carrying that value, and an absent version loads exactly like the
same document with version 1. -/
theorem C3_version_gating (base : String) (doc : LedsDoc) :
    (∀ v, doc.version = some v → v ≠ 1 →
      loadJsonConfig base doc = .error (.unsupportedVersion v)) ∧
    (doc.version = none →
      loadJsonConfig base doc = loadJsonConfig base ⟨some 1, doc.leds⟩) := by
  constructor
  · intro v hv hne
    simp [loadJsonConfig, hv, hne]
  · intro hv
    simp [loadJsonConfig, hv, loadJsonConfigV1]

/-- C3 witness: version 2 is rejected carrying 2; omitted version equals
version 1 on a concrete document. -/
theorem C3_witness :
    loadJsonConfig "/base" ⟨some 2, none⟩ = .error (.unsupportedVersion 2) ∧
    loadJsonConfig "/base" ⟨none, some []⟩ =
      loadJsonConfig "/base" ⟨some 1, some []⟩ :=
  ⟨(C3_version_gating "/base" ⟨some 2, none⟩).1 2 rfl (by decide),
   (C3_version_gating "/base" ⟨none, some []⟩).2 rfl⟩

/-! ## Group path construction and duplicate group paths -/

/-- C5 counterexample: with the configured root
"/xyz/openbmc_project/led/groups", a group field "/a" produces the key
"/a" — fs::path append replaces the whole path when the right-hand side
is absolute — not basePrefix + "/" + "/a". -/
theorem C5_counterexample :
    loadJsonConfigV1 "/xyz/openbmc_project/led/groups" groupSlashDoc =
      .ok [("/a", ([] : ActionSet))] ∧
    "/a" ≠ "/xyz/openbmc_project/led/groups" ++ "/" ++ "/a" := by
  exact ⟨rfl, by decide⟩

/-- C5 (amended): for a base that is non-empty and does not end in "/"
(as the configured object-path root is), the key is basePrefix + "/" +
group whenever the group field does not begin with "/" — including the
absent-field default "" — but a group field beginning with "/" replaces
the base entirely and becomes the key itself. -/
theorem C5_group_path (base : String) (e : GroupEntry)
    (hne : base ≠ "") (hsl : ¬ base.data.getLast? = some '/') :
    (¬ (e.group.getD "").data.head? = some '/' →
      entryPath base e = base ++ "/" ++ e.group.getD "") ∧
    ((e.group.getD "").data.head? = some '/' →
      entryPath base e = e.group.getD "") := by
  constructor
  · intro h
    simp [entryPath, pathAppend, h, hne, hsl]
  · intro h
    simp [entryPath, pathAppend, h]

/-- C5 witness: a relative group gets the prefixed key, the absent
default gets basePrefix + "/", and an absolute group becomes the key. -/
theorem C5_witness :
    entryPath "/xyz/openbmc_project/led/groups" ⟨some "power", none⟩ =
      "/xyz/openbmc_project/led/groups" ++ "/" ++ "power" ∧
    entryPath "/xyz/openbmc_project/led/groups" ⟨none, none⟩ =
      "/xyz/openbmc_project/led/groups" ++ "/" ++ "" ∧
    entryPath "/xyz/openbmc_project/led/groups" ⟨some "/a", none⟩ = "/a" :=
  ⟨(C5_group_path "/xyz/openbmc_project/led/groups" ⟨some "power", none⟩
      (by decide) (by decide)).1 (by decide),
   (C5_group_path "/xyz/openbmc_project/led/groups" ⟨none, none⟩
      (by decide) (by decide)).1 (by decide),
   (C5_group_path "/xyz/openbmc_project/led/groups" ⟨some "/a", none⟩
      (by decide) (by decide)).2 (by decide)⟩

/-- C2 counterexample: two entries with group path "/base/g"; the
returned map holds the member set of the EARLIER entry (member "a"),
not of the later one (member "b"): std::unordered_map::emplace does not
overwrite. -/
theorem C2_counterexample :
    ∃ gm, loadJsonConfigV1 "/base" dupGroupDoc = .ok gm ∧
      mapFind gm "/base/g" =
        some [⟨"a", Action.On, 50, 0, Action.Blink⟩] ∧
      mapFind gm "/base/g" ≠
        some [⟨"b", Action.On, 50, 0, Action.Blink⟩] := by
  refine ⟨[("/base/g", [⟨"a", Action.On, 50, 0, Action.Blink⟩])],
    rfl, rfl, by decide⟩

/-- Preservation helper: GroupMap.emplace never changes an existing
binding. -/
theorem mapFind_emplace_preserve (gm : GroupMap) (k k' : String)
    (v' v : ActionSet) (h : mapFind gm k = some v) :
    mapFind (GroupMap.emplace gm k' v') k = some v := by
  unfold GroupMap.emplace
  cases hf : mapFind gm k' with
  | some w => exact h
  | none =>
    have hne : k' ≠ k := by
      rintro rfl
      rw [h] at hf
      exact Option.noConfusion hf
    simp [mapFind, hne, h]

/-- Preservation helper: once a group path is bound in the accumulating
map, processing further entries never changes its binding. -/
theorem processEntries_preserve (base : String) (entries : List GroupEntry) :
    ∀ (gm : GroupMap) (pm : PriorityMap) (gm' : GroupMap),
      processEntries base entries gm pm = .ok gm' →
      ∀ k v, mapFind gm k = some v → mapFind gm' k = some v := by
  induction entries with
  | nil =>
    intro gm pm gm' h k v hv
    rw [processEntries] at h
    rw [← Except.ok.inj h]
    exact hv
  | cons e rest ih =>
    intro gm pm gm' h k v hv
    rw [processEntries] at h
    cases hm : processMembers (e.members.getD []) [] pm with
    | error err => rw [hm] at h; exact Except.noConfusion h
    | ok p =>
      rw [hm] at h
      exact ih _ _ _ h k v (mapFind_emplace_preserve gm k _ p.1 v hv)

/-- C2 (amended): when two entries produce the same group path, the map
keeps the member set built from the EARLIER (document-order) entry:
emplace on a present key is a no-op, and an existing binding survives
all further processing untouched. -/
theorem C2_first_entry_wins :
    (∀ (gm : GroupMap) (k : String) (v w : ActionSet),
      mapFind gm k = some w → GroupMap.emplace gm k v = gm) ∧
    (∀ (base : String) (entries : List GroupEntry) (gm : GroupMap)
        (pm : PriorityMap) (gm' : GroupMap),
      processEntries base entries gm pm = .ok gm' →
      ∀ k v, mapFind gm k = some v → mapFind gm' k = some v) := by
  constructor
  · intro gm k v w h
    unfold GroupMap.emplace
    rw [h]
  · exact fun base entries => processEntries_preserve base entries

/-- C2 witness: a concrete colliding emplace is a no-op, and a binding
present before an entry is processed is unchanged afterwards. -/
theorem C2_witness :
    GroupMap.emplace [("/base/g", ([] : ActionSet))] "/base/g"
        [⟨"x", Action.On, 50, 0, Action.Blink⟩] =
      [("/base/g", ([] : ActionSet))] ∧
    mapFind [("/base/g", ([⟨"a", Action.On, 50, 0, Action.Blink⟩] : ActionSet))]
        "/base/g" = some [⟨"a", Action.On, 50, 0, Action.Blink⟩] :=
  ⟨C2_first_entry_wins.1 [("/base/g", [])] "/base/g"
      [⟨"x", Action.On, 50, 0, Action.Blink⟩] [] rfl,
   C2_first_entry_wins.2 "/base" [⟨some "g", some []⟩]
      [("/base/g", [⟨"a", Action.On, 50, 0, Action.Blink⟩])] [] _ rfl
      "/base/g" [⟨"a", Action.On, 50, 0, Action.Blink⟩] rfl⟩

/-! ## Helper lemmas for the priority-scan analysis -/

/-- Unfolding lemma for mapFind on a cons cell. -/
theorem mapFind_cons {β : Type} (n k : String) (v : β)
    (pm : List (String × β)) :
    mapFind ((n, v) :: pm) k = if n = k then some v else mapFind pm k := rfl

/-- mapFind misses exactly the keys outside the map. -/
theorem mapFind_eq_none_iff {β : Type} (pm : List (String × β)) (k : String) :
    mapFind pm k = none ↔ k ∉ pm.map Prod.fst := by
  induction pm with
  | nil => simp [mapFind]
  | cons hd tl ih =>
    obtain ⟨n, v⟩ := hd
    by_cases h : n = k
    · subst h
      simp [mapFind]
    · simp [mapFind, h, ih, Ne.symm h]

/-- A successful validatePriority call either inserted a fresh binding or
found an equal one and left the map alone. -/
theorem validatePriority_ok (n : String) (p : Action) (pm pm' : PriorityMap)
    (h : validatePriority n p pm = (none, pm')) :
    (mapFind pm n = none ∧ pm' = (n, p) :: pm) ∨
    (mapFind pm n = some p ∧ pm' = pm) := by
  cases hf : mapFind pm n with
  | none =>
    simp only [validatePriority, hf] at h
    exact Or.inl ⟨rfl, ((Prod.mk.injEq _ _ _ _).mp h).2.symm⟩
  | some old =>
    simp only [validatePriority, hf] at h
    by_cases he : old = p
    · rw [if_neg (by simp [he])] at h
      exact Or.inr ⟨by rw [he], ((Prod.mk.injEq _ _ _ _).mp h).2.symm⟩
    · rw [if_pos he] at h
      exact Option.noConfusion ((Prod.mk.injEq _ _ _ _).mp h).1

/-- A failing validatePriority call reports (name, recorded, new) with the
two priorities different, and leaves the map alone. -/
theorem validatePriority_conflict (n : String) (p : Action)
    (pm pm' : PriorityMap) (c : PriorityConflict)
    (h : validatePriority n p pm = (some c, pm')) :
    c.name = n ∧ c.newPriority = p ∧ mapFind pm n = some c.oldPriority ∧
    c.oldPriority ≠ p ∧ pm' = pm := by
  cases hf : mapFind pm n with
  | none =>
    simp only [validatePriority, hf] at h
    exact Option.noConfusion ((Prod.mk.injEq _ _ _ _).mp h).1
  | some old =>
    simp only [validatePriority, hf] at h
    by_cases he : old = p
    · rw [if_neg (by simp [he])] at h
      exact Option.noConfusion ((Prod.mk.injEq _ _ _ _).mp h).1
    · rw [if_pos he] at h
      obtain ⟨h1, h2⟩ := (Prod.mk.injEq _ _ _ _).mp h
      have hc : c = ⟨n, old, p⟩ := (Option.some.inj h1).symm
      subst hc
      exact ⟨rfl, rfl, rfl, he, h2.symm⟩

/-- A successful processMember call decoded both strings, passed the
priority validation, and built the record with the member's name and
decoded priority. -/
theorem processMember_ok (m : MemberEntry) (pm : PriorityMap)
    (la : LedAction) (pm' : PriorityMap)
    (h : processMember m pm = .ok (la, pm')) :
    ∃ p, decodedPriority m = some p ∧
      validatePriority (memberName m) p pm = (none, pm') ∧
      la.name = memberName m ∧ la.priority = p := by
  rw [processMember] at h
  cases ha : getAction (m.action.getD "") with
  | none => rw [ha] at h; exact Except.noConfusion h
  | some a =>
    cases hp : getAction (m.priority.getD "Blink") with
    | none => rw [ha, hp] at h; exact Except.noConfusion h
    | some p =>
      cases hv : validatePriority (m.name.getD "") p pm with
      | mk err pm2 =>
        cases err with
        | some c =>
          simp only [ha, hp, hv] at h
          exact Except.noConfusion h
        | none =>
          simp only [ha, hp, hv, Except.ok.injEq, Prod.mk.injEq] at h
          obtain ⟨hla, hpm⟩ := h
          subst hpm
          refine ⟨p, hp, hv, ?_, ?_⟩
          · rw [← hla]; rfl
          · rw [← hla]

/-- A failing processMember call either tripped an assert (some codec
input invalid) or reported a genuine priority conflict against the
recorded map. -/
theorem processMember_error (m : MemberEntry) (pm : PriorityMap)
    (e : LoadError) (h : processMember m pm = .error e) :
    (e = .assertionFailure ∧ ¬ memberDecodes m) ∨
    (∃ old new, e = .priorityConflict (memberName m) old new ∧ old ≠ new ∧
      mapFind pm (memberName m) = some old ∧ decodedPriority m = some new) := by
  rw [processMember] at h
  cases ha : getAction (m.action.getD "") with
  | none =>
    rw [ha] at h
    refine Or.inl ⟨(Except.error.inj h).symm, ?_⟩
    intro hd
    rw [memberDecodes, ha] at hd
    exact Bool.noConfusion hd.1
  | some a =>
    cases hp : getAction (m.priority.getD "Blink") with
    | none =>
      rw [ha, hp] at h
      simp only at h
      refine Or.inl ⟨(Except.error.inj h).symm, ?_⟩
      intro hd
      rw [memberDecodes, decodedPriority, hp] at hd
      exact Bool.noConfusion hd.2
    | some p =>
      cases hv : validatePriority (m.name.getD "") p pm with
      | mk err pm2 =>
        cases err with
        | none =>
          simp only [ha, hp, hv] at h
          exact Except.noConfusion h
        | some c =>
          simp only [ha, hp, hv] at h
          obtain ⟨hcn, hcp, hfind, hne, -⟩ :=
            validatePriority_conflict _ _ _ _ _ hv
          have he : e = .priorityConflict c.name c.oldPriority c.newPriority :=
            (Except.error.inj h).symm
          refine Or.inr ⟨c.oldPriority, c.newPriority, ?_, ?_, ?_, ?_⟩
          · rw [he, hcn]; rfl
          · rw [hcp]; exact hne
          · exact hfind
          · rw [hcp]; exact hp

/-- processMembers and its scan projection agree: same errors, same final
priority map. -/
theorem processMembers_map_snd (ms : List MemberEntry) :
    ∀ (s : ActionSet) (pm : PriorityMap),
      (processMembers ms s pm).map Prod.snd = scanMembers ms pm := by
  induction ms with
  | nil => intro s pm; rfl
  | cons m rest ih =>
    intro s pm
    rw [processMembers, scanMembers]
    cases hq : processMember m pm with
    | error e => rfl
    | ok q => exact ih (ActionSet.emplace s q.1) q.2

/-- Splitting a scan over an append. -/
theorem scanMembers_append (xs ys : List MemberEntry) :
    ∀ pm, scanMembers (xs ++ ys) pm =
      match scanMembers xs pm with
      | .error e => .error e
      | .ok pm' => scanMembers ys pm' := by
  induction xs with
  | nil => intro pm; rfl
  | cons m rest ih =>
    intro pm
    rw [List.cons_append, scanMembers, scanMembers]
    cases hq : processMember m pm with
    | error e => rfl
    | ok q => exact ih q.2

/-- A successful scan never changes an existing binding: insertions only
happen for names absent from the map. -/
theorem scanMembers_mono (ms : List MemberEntry) :
    ∀ pm pm', scanMembers ms pm = .ok pm' →
      ∀ n v, mapFind pm n = some v → mapFind pm' n = some v := by
  induction ms with
  | nil =>
    intro pm pm' h n v hv
    rw [scanMembers] at h
    rw [← Except.ok.inj h]
    exact hv
  | cons m rest ih =>
    intro pm pm' h n v hv
    rw [scanMembers] at h
    cases hq : processMember m pm with
    | error e => rw [hq] at h; exact Except.noConfusion h
    | ok q =>
      rw [hq] at h
      obtain ⟨p, hdp, hval, -, -⟩ :=
        processMember_ok m pm q.1 q.2 (by rw [hq])
      have hq2 : mapFind q.2 n = some v := by
        rcases validatePriority_ok _ _ _ _ hval with ⟨hnone, hpm⟩ | ⟨-, hpm⟩
        · rw [hpm, mapFind_cons]
          have hne : memberName m ≠ n := by
            rintro rfl
            rw [hv] at hnone
            exact Option.noConfusion hnone
          rw [if_neg hne]
          exact hv
        · rw [hpm]; exact hv
      exact ih q.2 pm' h n v hq2

/-- After a successful scan, every member's decoded priority is recorded
under its name in the final map. -/
theorem scanMembers_ok_sound (ms : List MemberEntry) :
    ∀ pm pm', scanMembers ms pm = .ok pm' →
      ∀ m ∈ ms, ∀ p, decodedPriority m = some p →
        mapFind pm' (memberName m) = some p := by
  induction ms with
  | nil => intro pm pm' h m hm; exact absurd hm (List.not_mem_nil m)
  | cons m0 rest ih =>
    intro pm pm' h m hm p hp
    rw [scanMembers] at h
    cases hq : processMember m0 pm with
    | error e => rw [hq] at h; exact Except.noConfusion h
    | ok q =>
      rw [hq] at h
      rcases List.mem_cons.mp hm with rfl | hmr
      · obtain ⟨p0, hdp, hval, -, -⟩ :=
          processMember_ok m pm q.1 q.2 (by rw [hq])
        have hpp : p0 = p := by
          rw [hp] at hdp
          exact (Option.some.inj hdp).symm
        subst hpp
        have hq2 : mapFind q.2 (memberName m) = some p0 := by
          rcases validatePriority_ok _ _ _ _ hval with ⟨-, hpm⟩ | ⟨hsome, hpm⟩
          · rw [hpm, mapFind_cons, if_pos rfl]
          · rw [hpm]; exact hsome
        exact scanMembers_mono rest q.2 pm' h (memberName m) p0 hq2
      · exact ih q.2 pm' h m hmr p hp

/-- Every binding of a successful scan's final map is either an original
binding or the decoded priority of some scanned member. -/
theorem scanMembers_ok_bindings (ms : List MemberEntry) :
    ∀ pm pm', scanMembers ms pm = .ok pm' →
      ∀ n p, mapFind pm' n = some p →
        mapFind pm n = some p ∨
        ∃ m ∈ ms, memberName m = n ∧ decodedPriority m = some p := by
  induction ms with
  | nil =>
    intro pm pm' h n p hv
    refine Or.inl ?_
    rw [scanMembers] at h
    rw [Except.ok.inj h]
    exact hv
  | cons m0 rest ih =>
    intro pm pm' h n p hv
    rw [scanMembers] at h
    cases hq : processMember m0 pm with
    | error e => rw [hq] at h; exact Except.noConfusion h
    | ok q =>
      rw [hq] at h
      obtain ⟨p0, hdp0, hval, -, -⟩ :=
        processMember_ok m0 pm q.1 q.2 (by rw [hq])
      rcases ih q.2 pm' h n p hv with hq2 | ⟨m, hm, hn, hp⟩
      · rcases validatePriority_ok _ _ _ _ hval with ⟨-, hpm⟩ | ⟨-, hpm⟩
        · rw [hpm, mapFind_cons] at hq2
          by_cases hne : memberName m0 = n
          · rw [if_pos hne] at hq2
            refine Or.inr ⟨m0, List.mem_cons_self m0 rest, hne, ?_⟩
            rw [hdp0]
            exact hq2
          · rw [if_neg hne] at hq2
            exact Or.inl hq2
        · rw [hpm] at hq2
          exact Or.inl hq2
      · exact Or.inr ⟨m, List.mem_cons_of_mem m0 hm, hn, hp⟩

/-- A failing scan either tripped an assert on some member or reports a
priority conflict whose two priorities really occur for that name (in
the starting map or among the scanned members). -/
theorem scanMembers_error (ms : List MemberEntry) :
    ∀ pm e, scanMembers ms pm = .error e →
      (e = .assertionFailure ∧ ∃ m ∈ ms, ¬ memberDecodes m) ∨
      (∃ n old new, e = .priorityConflict n old new ∧ old ≠ new ∧
        (mapFind pm n = some old ∨
          ∃ m1 ∈ ms, memberName m1 = n ∧ decodedPriority m1 = some old) ∧
        (∃ m2 ∈ ms, memberName m2 = n ∧ decodedPriority m2 = some new)) := by
  induction ms with
  | nil => intro pm e h; exact Except.noConfusion h
  | cons m0 rest ih =>
    intro pm e h
    rw [scanMembers] at h
    cases hq : processMember m0 pm with
    | error e0 =>
      rw [hq] at h
      have he : e = e0 := (Except.error.inj h).symm
      subst he
      rcases processMember_error m0 pm e hq with ⟨ha, hnd⟩ |
        ⟨old, new, he0, hne, hf, hdp⟩
      · exact Or.inl ⟨ha, m0, List.mem_cons_self m0 rest, hnd⟩
      · exact Or.inr ⟨memberName m0, old, new, he0, hne, Or.inl hf,
          ⟨m0, List.mem_cons_self m0 rest, rfl, hdp⟩⟩
    | ok q =>
      rw [hq] at h
      obtain ⟨p0, hdp0, hval, -, -⟩ :=
        processMember_ok m0 pm q.1 q.2 (by rw [hq])
      rcases ih q.2 e h with ⟨ha, m, hm, hnd⟩ |
        ⟨n, old, new, he, hne, hold, hnew⟩
      · exact Or.inl ⟨ha, m, List.mem_cons_of_mem m0 hm, hnd⟩
      · refine Or.inr ⟨n, old, new, he, hne, ?_, ?_⟩
        · rcases hold with hf | ⟨m1, hm1, hn1, hp1⟩
          · rcases validatePriority_ok _ _ _ _ hval with ⟨-, hpm⟩ | ⟨-, hpm⟩
            · rw [hpm, mapFind_cons] at hf
              by_cases hne0 : memberName m0 = n
              · rw [if_pos hne0] at hf
                refine Or.inr ⟨m0, List.mem_cons_self m0 rest, hne0, ?_⟩
                rw [hdp0]
                exact hf
              · rw [if_neg hne0] at hf
                exact Or.inl hf
            · rw [hpm] at hf
              exact Or.inl hf
          · exact Or.inr ⟨m1, List.mem_cons_of_mem m0 hm1, hn1, hp1⟩
        · obtain ⟨m2, hm2, hn2, hp2⟩ := hnew
          exact ⟨m2, List.mem_cons_of_mem m0 hm2, hn2, hp2⟩

/-- A scan succeeds whenever every member decodes and all priorities are
mutually consistent and consistent with the starting map. -/
theorem scanMembers_ok_of_consistent (ms : List MemberEntry) :
    ∀ pm, (∀ m ∈ ms, memberDecodes m) → consistentWith pm ms →
      pairwiseConsistent ms → ∃ pm', scanMembers ms pm = .ok pm' := by
  induction ms with
  | nil => intro pm _ _ _; exact ⟨pm, rfl⟩
  | cons m0 rest ih =>
    intro pm hdec hcons hpair
    obtain ⟨ha, hp⟩ := hdec m0 (List.mem_cons_self m0 rest)
    obtain ⟨a, haeq⟩ := Option.isSome_iff_exists.mp ha
    obtain ⟨p0, hpeq⟩ := Option.isSome_iff_exists.mp hp
    have hpeq' : getAction (m0.priority.getD "Blink") = some p0 := hpeq
    cases hf : mapFind pm (memberName m0) with
    | none =>
      have hval : validatePriority (m0.name.getD "") p0 pm =
          (none, (m0.name.getD "", p0) :: pm) := by
        show validatePriority (memberName m0) p0 pm = _
        simp only [validatePriority, hf]
        rfl
      have hm0 : processMember m0 pm =
          .ok (⟨m0.name.getD "", a, (m0.dutyOn.getD 50) % 256,
                (m0.period.getD 0) % 65536, p0⟩,
               (m0.name.getD "", p0) :: pm) := by
        simp only [processMember, haeq, hpeq', hval]
      have hcons' : consistentWith ((m0.name.getD "", p0) :: pm) rest := by
        intro m hm p hfind
        rw [show ((m0.name.getD "", p0) :: pm : PriorityMap) =
            (memberName m0, p0) :: pm from rfl, mapFind_cons] at hfind
        by_cases hne : memberName m0 = memberName m
        · rw [if_pos hne] at hfind
          have hdd : decodedPriority m0 = decodedPriority m :=
            hpair m0 (List.mem_cons_self m0 rest) m
              (List.mem_cons_of_mem m0 hm) hne

          rw [← hdd, hpeq, Option.some.inj hfind]
        · rw [if_neg hne] at hfind
          exact hcons m (List.mem_cons_of_mem m0 hm) p hfind
      obtain ⟨pm', hsc⟩ := ih ((m0.name.getD "", p0) :: pm)
        (fun m hm => hdec m (List.mem_cons_of_mem m0 hm)) hcons'
        (fun m1 h1 m2 h2 hn => hpair m1 (List.mem_cons_of_mem m0 h1)
          m2 (List.mem_cons_of_mem m0 h2) hn)
      refine ⟨pm', ?_⟩
      rw [scanMembers, hm0]
      exact hsc
    | some pexist =>
      have hpe : pexist = p0 := by
        have := hcons m0 (List.mem_cons_self m0 rest) pexist hf
        rw [hpeq] at this
        exact (Option.some.inj this).symm
      subst hpe
      have hval : validatePriority (m0.name.getD "") pexist pm =
          (none, pm) := by
        show validatePriority (memberName m0) pexist pm = _
        simp only [validatePriority, hf]
        rw [if_neg (by simp)]
      have hm0 : processMember m0 pm =
          .ok (⟨m0.name.getD "", a, (m0.dutyOn.getD 50) % 256,
                (m0.period.getD 0) % 65536, pexist⟩, pm) := by
        simp only [processMember, haeq, hpeq', hval]
      obtain ⟨pm', hsc⟩ := ih pm
        (fun m hm => hdec m (List.mem_cons_of_mem m0 hm))
        (fun m hm p hfind => hcons m (List.mem_cons_of_mem m0 hm) p hfind)
        (fun m1 h1 m2 h2 hn => hpair m1 (List.mem_cons_of_mem m0 h1)
          m2 (List.mem_cons_of_mem m0 h2) hn)
      refine ⟨pm', ?_⟩
      rw [scanMembers, hm0]
      exact hsc

/-- The group loop fails with exactly the errors of the flat member scan:
the GroupMap accumulation cannot fail, and the priority map threads
through group boundaries unchanged. -/
theorem processEntries_error (base : String) (entries : List GroupEntry) :
    ∀ (gm : GroupMap) (pm : PriorityMap) (e : LoadError),
      processEntries base entries gm pm = .error e ↔
      scanMembers (flatMembers entries) pm = .error e := by
  induction entries with
  | nil =>
    intro gm pm e
    constructor
    · intro h; exact Except.noConfusion h
    · intro h; exact Except.noConfusion h
  | cons e0 rest ih =>
    intro gm pm e
    have hflat : flatMembers (e0 :: rest) =
        (e0.members.getD []) ++ flatMembers rest := rfl
    rw [processEntries, hflat, scanMembers_append]
    cases hq : processMembers (e0.members.getD []) [] pm with
    | error err =>
      have hscan : scanMembers (e0.members.getD []) pm = .error err := by
        rw [← processMembers_map_snd _ [] pm, hq]
        rfl
      rw [hscan]
      constructor
      · intro h
        have he : err = e := Except.error.inj h
        subst he
        rfl
      · intro h
        have he : err = e := Except.error.inj h
        subst he
        rfl
    | ok q =>
      have hscan : scanMembers (e0.members.getD []) pm = .ok q.2 := by
        rw [← processMembers_map_snd _ [] pm, hq]
        rfl
      rw [hscan]
      exact ih (GroupMap.emplace gm (entryPath base e0) q.1) q.2 e

/-! ## C1: the cross-group priority invariant -/

/-- C1: if every member decodes and some LED name occurs with two
different decoded priorities, version-1 loading fails with a
PriorityConflict whose name genuinely carries both reported priorities
in the document; and whenever every LED name decodes to one single
priority everywhere it appears, the load never fails with a
PriorityConflict. -/
theorem C1_priority_invariant (base : String) (doc : LedsDoc) :
    ((∀ m ∈ flatMembers (doc.leds.getD []), memberDecodes m) →
     (∃ m1 ∈ flatMembers (doc.leds.getD []),
      ∃ m2 ∈ flatMembers (doc.leds.getD []),
        memberName m1 = memberName m2 ∧
        decodedPriority m1 ≠ decodedPriority m2) →
      ∃ n old new,
        loadJsonConfigV1 base doc = .error (.priorityConflict n old new) ∧
        old ≠ new ∧
        (∃ m1 ∈ flatMembers (doc.leds.getD []),
          memberName m1 = n ∧ decodedPriority m1 = some old) ∧
        (∃ m2 ∈ flatMembers (doc.leds.getD []),
          memberName m2 = n ∧ decodedPriority m2 = some new)) ∧
    (pairwiseConsistent (flatMembers (doc.leds.getD [])) →
      ∀ n old new,
        loadJsonConfigV1 base doc ≠ .error (.priorityConflict n old new)) := by
  constructor
  · intro hdec ⟨m1, hm1, m2, hm2, hname, hdiff⟩
    cases hsc : scanMembers (flatMembers (doc.leds.getD [])) [] with
    | ok pm' =>
      exfalso
      obtain ⟨p1, hp1⟩ := Option.isSome_iff_exists.mp (hdec m1 hm1).2
      obtain ⟨p2, hp2⟩ := Option.isSome_iff_exists.mp (hdec m2 hm2).2
      have h1 := scanMembers_ok_sound _ _ _ hsc m1 hm1 p1 hp1
      have h2 := scanMembers_ok_sound _ _ _ hsc m2 hm2 p2 hp2
      rw [hname] at h1
      rw [h2] at h1
      apply hdiff
      rw [hp1, hp2, Option.some.inj h1]
    | error e =>
      rcases scanMembers_error _ _ _ hsc with ⟨-, m, hm, hnd⟩ |
        ⟨n, old, new, he, hne, hold, hnew⟩
      · exact absurd (hdec m hm) hnd
      · subst he
        refine ⟨n, old, new, ?_, hne, ?_, hnew⟩
        · exact (processEntries_error base _ [] [] _).mpr hsc
        · rcases hold with hf | hm1'
          · exact absurd hf (by rw [mapFind]; exact fun hc => Option.noConfusion hc)
          · exact hm1'
  · intro hpair n old new hload
    have hsc := (processEntries_error base _ [] [] _).mp hload
    rcases scanMembers_error _ _ _ hsc with ⟨he, -⟩ |
      ⟨n', old', new', he, hne, hold, hnew⟩
    · exact LoadError.noConfusion he
    · obtain ⟨m2, hm2, hn2, hp2⟩ := hnew
      rcases hold with hf | ⟨m1, hm1, hn1, hp1⟩
      · exact Option.noConfusion hf
      · apply hne
        have := hpair m1 hm1 m2 hm2 (hn1.trans hn2.symm)
        rw [hp1, hp2] at this
        exact Option.some.inj this

/-- C1 witness: the spec §8 example scenario.  With matching priorities
the load never reports a conflict; changing the second Priority to
"Blink" makes it fail with a PriorityConflict naming led0 and its two
decoded priorities. -/
theorem C1_witness :
    (∃ n old new,
      loadJsonConfigV1 "/xyz/openbmc_project/led/groups" conflictDoc =
        .error (.priorityConflict n old new) ∧
      old ≠ new ∧
      (∃ m1 ∈ flatMembers (conflictDoc.leds.getD []),
        memberName m1 = n ∧ decodedPriority m1 = some old) ∧
      (∃ m2 ∈ flatMembers (conflictDoc.leds.getD []),
        memberName m2 = n ∧ decodedPriority m2 = some new)) ∧
    loadJsonConfigV1 "/xyz/openbmc_project/led/groups" exampleDoc ≠
      .error (.priorityConflict "led0" Action.On Action.Blink) :=
  ⟨(C1_priority_invariant "/xyz/openbmc_project/led/groups" conflictDoc).1
      (by decide) (by decide),
   (C1_priority_invariant "/xyz/openbmc_project/led/groups" exampleDoc).2
      (by decide) "led0" Action.On Action.Blink⟩

/-! ## C6: shape of the GroupMap on well-formed documents -/

/-- A key found in the map is among its keys. -/
theorem mapFind_mem_keys {β : Type} (pm : List (String × β)) (k : String)
    (v : β) (h : mapFind pm k = some v) : k ∈ pm.map Prod.fst := by
  by_contra hc
  rw [(mapFind_eq_none_iff pm k).mpr hc] at h
  exact Option.noConfusion h

/-- Keys after an emplace: the inserted key joins the existing ones. -/
theorem emplace_keys (gm : GroupMap) (k : String) (v : ActionSet)
    (x : String) :
    x ∈ (GroupMap.emplace gm k v).map Prod.fst ↔
      (x = k ∨ x ∈ gm.map Prod.fst) := by
  unfold GroupMap.emplace
  cases hf : mapFind gm k with
  | some w =>
    constructor
    · intro hx
      exact Or.inr hx
    · rintro (rfl | hx)
      · exact mapFind_mem_keys gm x w hf
      · exact hx
  | none =>
    show x ∈ ((k, v) :: gm).map Prod.fst ↔ _
    rw [List.map_cons]
    exact List.mem_cons

/-- An emplace of an absent key preserves key distinctness. -/
theorem emplace_keys_nodup (gm : GroupMap) (k : String) (v : ActionSet)
    (h : (gm.map Prod.fst).Nodup) :
    ((GroupMap.emplace gm k v).map Prod.fst).Nodup := by
  unfold GroupMap.emplace
  cases hf : mapFind gm k with
  | some w => exact h
  | none =>
    show (((k, v) :: gm).map Prod.fst).Nodup
    rw [List.map_cons]
    exact List.nodup_cons.mpr ⟨(mapFind_eq_none_iff gm k).mp hf, h⟩

/-- Consistency survives one scanned segment: the extended map still
agrees with all remaining members. -/
theorem consistentWith_step (ms rest : List MemberEntry)
    (pm pm' : PriorityMap) (hsc : scanMembers ms pm = .ok pm')
    (hcons : consistentWith pm (ms ++ rest))
    (hpair : pairwiseConsistent (ms ++ rest)) :
    consistentWith pm' rest := by
  intro m hm p hfind
  rcases scanMembers_ok_bindings ms pm pm' hsc (memberName m) p hfind with
    hf | ⟨m', hm', hn', hp'⟩
  · exact hcons m (List.mem_append_right ms hm) p hf
  · rw [← hpair m' (List.mem_append_left rest hm') m
      (List.mem_append_right ms hm) hn']
    exact hp'

/-- The group loop succeeds on decodable, priority-consistent input. -/
theorem processEntries_ok_of_consistent (base : String)
    (entries : List GroupEntry) :
    ∀ gm pm, (∀ m ∈ flatMembers entries, memberDecodes m) →
      consistentWith pm (flatMembers entries) →
      pairwiseConsistent (flatMembers entries) →
      ∃ gm', processEntries base entries gm pm = .ok gm' := by
  induction entries with
  | nil => intro gm pm _ _ _; exact ⟨gm, rfl⟩
  | cons e0 rest ih =>
    intro gm pm hdec hcons hpair
    have hflat : flatMembers (e0 :: rest) =
        (e0.members.getD []) ++ flatMembers rest := rfl
    rw [hflat] at hdec hcons hpair
    obtain ⟨pm1, hsc⟩ := scanMembers_ok_of_consistent (e0.members.getD []) pm
      (fun m hm => hdec m (List.mem_append_left _ hm))
      (fun m hm p hf => hcons m (List.mem_append_left _ hm) p hf)
      (fun m1 h1 m2 h2 hn => hpair m1 (List.mem_append_left _ h1)
        m2 (List.mem_append_left _ h2) hn)
    cases hq : processMembers (e0.members.getD []) [] pm with
    | error err =>
      exfalso
      have hmap := processMembers_map_snd (e0.members.getD []) [] pm
      rw [hq, hsc] at hmap
      exact Except.noConfusion hmap
    | ok q =>
      have hpm1 : pm1 = q.2 := by
        have hmap := processMembers_map_snd (e0.members.getD []) [] pm
        rw [hq, hsc] at hmap
        exact (Except.ok.inj hmap).symm
      obtain ⟨gm', hrec⟩ :=
        ih (GroupMap.emplace gm (entryPath base e0) q.1) q.2
          (fun m hm => hdec m (List.mem_append_right _ hm))
          (hpm1 ▸ consistentWith_step _ _ _ _ hsc hcons hpair)
          (fun m1 h1 m2 h2 hn => hpair m1 (List.mem_append_right _ h1)
            m2 (List.mem_append_right _ h2) hn)
      refine ⟨gm', ?_⟩
      rw [processEntries, hq]
      exact hrec

/-- The final map's keys are the starting keys plus the entry paths. -/
theorem processEntries_keys (base : String) (entries : List GroupEntry) :
    ∀ gm pm gm', processEntries base entries gm pm = .ok gm' →
      ∀ k, k ∈ gm'.map Prod.fst ↔
        (k ∈ gm.map Prod.fst ∨ k ∈ entries.map (entryPath base)) := by
  induction entries with
  | nil =>
    intro gm pm gm' h k
    rw [← Except.ok.inj h]
    simp
  | cons e0 rest ih =>
    intro gm pm gm' h k
    rw [processEntries] at h
    cases hq : processMembers (e0.members.getD []) [] pm with
    | error err => rw [hq] at h; exact Except.noConfusion h
    | ok q =>
      rw [hq] at h
      rw [ih _ _ _ h k, emplace_keys, List.map_cons, List.mem_cons]
      constructor
      · rintro ((rfl | hk) | hk)
        · exact Or.inr (Or.inl rfl)
        · exact Or.inl hk
        · exact Or.inr (Or.inr hk)
      · rintro (hk | (rfl | hk))
        · exact Or.inl (Or.inr hk)
        · exact Or.inl (Or.inl rfl)
        · exact Or.inr hk

/-- Processing preserves key distinctness. -/
theorem processEntries_keys_nodup (base : String)
    (entries : List GroupEntry) :
    ∀ gm pm gm', processEntries base entries gm pm = .ok gm' →
      (gm.map Prod.fst).Nodup → (gm'.map Prod.fst).Nodup := by
  induction entries with
  | nil =>
    intro gm pm gm' h hn
    rw [← Except.ok.inj h]
    exact hn
  | cons e0 rest ih =>
    intro gm pm gm' h hn
    rw [processEntries] at h
    cases hq : processMembers (e0.members.getD []) [] pm with
    | error err => rw [hq] at h; exact Except.noConfusion h
    | ok q =>
      rw [hq] at h
      exact ih _ _ _ h (emplace_keys_nodup gm _ q.1 hn)

/-- On a group whose member names are distinct, the built set has one
record per member. -/
theorem processMembers_ok_length (ms : List MemberEntry) :
    ∀ (s : ActionSet) (pm : PriorityMap) (s' : ActionSet)
      (pm' : PriorityMap),
      processMembers ms s pm = .ok (s', pm') →
      (ms.map memberName).Nodup →
      (∀ m ∈ ms, ∀ b ∈ s, b.name ≠ memberName m) →
      s'.length = s.length + ms.length := by
  induction ms with
  | nil =>
    intro s pm s' pm' h _ _
    rw [processMembers] at h
    have hs := congrArg Prod.fst (Except.ok.inj h)
    simp only at hs
    rw [← hs]
    simp
  | cons m0 rest ih =>
    intro s pm s' pm' h hnodup hfresh
    rw [processMembers] at h
    cases hq : processMember m0 pm with
    | error e => rw [hq] at h; exact Except.noConfusion h
    | ok q =>
      rw [hq] at h
      obtain ⟨p0, -, -, hname, -⟩ :=
        processMember_ok m0 pm q.1 q.2 (by rw [hq])
      obtain ⟨hnotmem, hnodup'⟩ :=
        List.nodup_cons.mp (by rw [List.map_cons] at hnodup; exact hnodup)
      have hany : (s.any fun b => b.name == q.1.name) = false := by
        rw [List.any_eq_false]
        intro b hb
        rw [hname]
        simp only [beq_iff_eq]
        exact hfresh m0 (List.mem_cons_self m0 rest) b hb
      have hemp : ActionSet.emplace s q.1 = s ++ [q.1] := by
        rw [ActionSet.emplace, hany]
        rfl
      have hlen := ih (ActionSet.emplace s q.1) q.2 s' pm' h hnodup' ?_
      · rw [hlen, hemp, List.length_append]
        simp only [List.length_cons, List.length_nil]
        omega
      · intro m hm b hb
        rw [hemp] at hb
        rcases List.mem_append.mp hb with hbs | hbq
        · exact hfresh m (List.mem_cons_of_mem m0 hm) b hbs
        · rw [List.mem_singleton.mp hbq, hname]
          intro hc
          exact hnotmem (hc ▸ List.mem_map_of_mem memberName hm)

/-- With pairwise-distinct group paths, each entry's path ends bound to
a set with exactly that entry's member count. -/
theorem processEntries_lookup (base : String) (entries : List GroupEntry) :
    ∀ gm pm gm', processEntries base entries gm pm = .ok gm' →
      (entries.map (entryPath base)).Nodup →
      (∀ e ∈ entries, ((e.members.getD []).map memberName).Nodup) →
      (∀ e ∈ entries, entryPath base e ∉ gm.map Prod.fst) →
      ∀ e ∈ entries, ∃ s, mapFind gm' (entryPath base e) = some s ∧
        s.length = (e.members.getD []).length := by
  induction entries with
  | nil => intro gm pm gm' h _ _ _ e he; exact absurd he (List.not_mem_nil e)
  | cons e0 rest ih =>
    intro gm pm gm' h hpnodup hnames hfresh e he
    rw [processEntries] at h
    cases hq : processMembers (e0.members.getD []) [] pm with
    | error err => rw [hq] at h; exact Except.noConfusion h
    | ok q =>
      rw [hq] at h
      obtain ⟨hp0notmem, hpnodup'⟩ := List.nodup_cons.mp
        (by rw [List.map_cons] at hpnodup; exact hpnodup)
      have hf0 : mapFind gm (entryPath base e0) = none :=
        (mapFind_eq_none_iff gm _).mpr
          (hfresh e0 (List.mem_cons_self e0 rest))
      have hemp : GroupMap.emplace gm (entryPath base e0) q.1 =
          (entryPath base e0, q.1) :: gm := by
        rw [GroupMap.emplace, hf0]
      rcases List.mem_cons.mp he with rfl | her
      · have hq1 : mapFind
            (GroupMap.emplace gm (entryPath base e) q.1)
            (entryPath base e) = some q.1 := by
          rw [hemp, mapFind_cons, if_pos rfl]
        have hlen : q.1.length = (e.members.getD []).length := by
          have := processMembers_ok_length (e.members.getD []) [] pm
            q.1 q.2 (by rw [hq])
            (hnames e (List.mem_cons_self e rest))
            (fun m _ b hb => absurd hb (List.not_mem_nil b))
          rw [this, List.length_nil, Nat.zero_add]
        exact ⟨q.1, processEntries_preserve base rest _ _ _ h _ q.1 hq1,
          hlen⟩
      · refine ih _ _ _ h hpnodup'
          (fun e' he' => hnames e' (List.mem_cons_of_mem e0 he')) ?_ e her
        intro e' he'
        rw [hemp, List.map_cons, List.mem_cons]
        rintro (hc | hc)
        · have hc' : entryPath base e' = entryPath base e0 := hc
          exact hp0notmem (hc' ▸ List.mem_map_of_mem (entryPath base) he')
        · exact hfresh e' (List.mem_cons_of_mem e0 he') hc

/-- C6: on a well-formed document every load succeeds, the key count is
the number of distinct group paths (hence N for pairwise-distinct paths,
fewer when paths collide), and with distinct paths each group's set has
exactly its member count. -/
theorem C6_round_trip (base : String) (doc : LedsDoc)
    (hdec : ∀ m ∈ flatMembers (doc.leds.getD []), memberDecodes m)
    (hnames : ∀ e ∈ doc.leds.getD [],
      ((e.members.getD []).map memberName).Nodup)
    (hpair : pairwiseConsistent (flatMembers (doc.leds.getD []))) :
    ∃ gm, loadJsonConfigV1 base doc = .ok gm ∧
      gm.length =
        ((doc.leds.getD []).map (entryPath base)).dedup.length ∧
      (((doc.leds.getD []).map (entryPath base)).Nodup →
        gm.length = (doc.leds.getD []).length ∧
        ∀ e ∈ doc.leds.getD [], ∃ s,
          mapFind gm (entryPath base e) = some s ∧
          s.length = (e.members.getD []).length) := by
  obtain ⟨gm, hload⟩ := processEntries_ok_of_consistent base
    (doc.leds.getD []) [] [] hdec
    (fun m _ p hf => Option.noConfusion hf) hpair
  have hkeys := processEntries_keys base (doc.leds.getD []) [] [] gm hload
  have hnodup := processEntries_keys_nodup base (doc.leds.getD [])
    [] [] gm hload List.nodup_nil
  have hfin : (gm.map Prod.fst).toFinset =
      ((doc.leds.getD []).map (entryPath base)).dedup.toFinset := by
    ext k
    simp only [List.mem_toFinset, List.mem_dedup]
    rw [hkeys k]
    simp
  have hlen : gm.length =
      ((doc.leds.getD []).map (entryPath base)).dedup.length := by
    calc gm.length = (gm.map Prod.fst).length :=
          (List.length_map gm Prod.fst).symm
      _ = (gm.map Prod.fst).toFinset.card :=
          (List.toFinset_card_of_nodup hnodup).symm
      _ = ((doc.leds.getD []).map (entryPath base)).dedup.toFinset.card :=
          by rw [hfin]
      _ = ((doc.leds.getD []).map (entryPath base)).dedup.length :=
          List.toFinset_card_of_nodup
            (List.nodup_dedup ((doc.leds.getD []).map (entryPath base)))
  refine ⟨gm, hload, hlen, ?_⟩
  intro hpnodup
  constructor
  · rw [hlen, List.dedup_eq_self.mpr hpnodup,
      List.length_map (doc.leds.getD []) (entryPath base)]
  · exact processEntries_lookup base (doc.leds.getD []) [] [] gm hload
      hpnodup hnames (fun e _ hc => List.not_mem_nil _ hc)

/-- C6 witness: the spec §8 example scenario, two groups with distinct
paths and one member each, loads to a two-key map with singleton sets. -/
theorem C6_witness :
    ∃ gm, loadJsonConfigV1 "/xyz/openbmc_project/led/groups" exampleDoc =
        .ok gm ∧
      gm.length =
        ((exampleDoc.leds.getD []).map
          (entryPath "/xyz/openbmc_project/led/groups")).dedup.length ∧
      (((exampleDoc.leds.getD []).map
          (entryPath "/xyz/openbmc_project/led/groups")).Nodup →
        gm.length = (exampleDoc.leds.getD []).length ∧
        ∀ e ∈ exampleDoc.leds.getD [], ∃ s,
          mapFind gm (entryPath "/xyz/openbmc_project/led/groups" e) =
            some s ∧
          s.length = (e.members.getD []).length) :=
  C6_round_trip "/xyz/openbmc_project/led/groups" exampleDoc
    (by decide) (by decide) (by decide)

end LedJsonParser
